/-
Verification of the icloud-to-exchange-migration-toolkit pipeline.

This file gives a shallow embedding, in Lean 4, of the decision logic of the
four pipeline stages:

  * 0-mbox_to_eml.py  : split_mbox (the mbox splitter),
  * 1-email_date_fixer.py : parse_date_header (the date recovery chain),
    try_decode_with_encodings (the charset fallback), process_folder
    (the per-file failure accounting),
  * 2-delete_duplicates.py : get_email_key, select_best_version and the
    group-building loop of process_duplicates,
  * 3-eml_to_mbox.py  : get_email_date_and_sender and the mbox writing loop
    of convert_to_mbox (the assembler).

Text is modelled as List Char; Python str operations (strip, lower, split,
startswith) are re-implemented on that representation.  External library
functions with unbounded behaviour (email.utils.parsedate_to_datetime,
dateutil.parser.parse) are modelled as oracle parameters of the functions
that call them, since the repository's logic only branches on whether they
succeed, return a falsy value, or raise.  The regular expressions of the
source, in contrast, are concrete and are re-implemented here with exact
leftmost, greedy-with-backtracking semantics.
-/
import Mathlib

set_option maxRecDepth 20000

namespace Mig

/-! ## Basic text utilities (Python str semantics on List Char) -/

/-- The characters Python's str.strip removes (the ASCII whitespace set;
the inputs treated in this development are ASCII). -/
def isPySpace (c : Char) : Bool :=
  c == ' ' || c == '\t' || c == '\n' || c == '\r' || c == '\x0b' || c == '\x0c'

/-- Python str.strip: drop leading and trailing whitespace. -/
def pyStrip (cs : List Char) : List Char :=
  (((cs.dropWhile isPySpace).reverse).dropWhile isPySpace).reverse

/-- ASCII lowercasing of one character (model of Python str.lower on the
ASCII inputs used here). -/
def toLowerCh (c : Char) : Char :=
  if 'A' ≤ c ∧ c ≤ 'Z' then Char.ofNat (c.toNat + 32) else c

/-- Python str.lower, character by character. -/
def lowerStr (cs : List Char) : List Char := cs.map toLowerCh

/-- Split a character list at every occurrence of a separator character,
like Python str.split(sep).  Always returns at least one piece; the pieces
contain no separator. -/
def splitOnChar (sep : Char) : List Char → List (List Char)
  | [] => [[]]
  | c :: cs =>
    if c = sep then [] :: splitOnChar sep cs
    else
      match splitOnChar sep cs with
      | [] => [[c]]
      | l :: ls => (c :: l) :: ls

/-- Join pieces with a newline between consecutive pieces (inverse of
splitOnChar for newline). -/
def joinNl : List (List Char) → List Char
  | [] => []
  | [l] => l
  | l :: l' :: ls => l ++ '\n' :: joinNl (l' :: ls)

theorem splitOnChar_ne_nil (sep : Char) (cs : List Char) : splitOnChar sep cs ≠ [] := by
  cases cs with
  | nil => simp [splitOnChar]
  | cons c cs =>
    simp only [splitOnChar]
    by_cases h : c = sep
    · simp [h]
    · rw [if_neg h]
      cases hs : splitOnChar sep cs with
      | nil => simp
      | cons l ls => simp

theorem joinNl_splitOnChar (cs : List Char) : joinNl (splitOnChar '\n' cs) = cs := by
  induction cs with
  | nil => rfl
  | cons c cs ih =>
    simp only [splitOnChar]
    by_cases h : c = '\n'
    · subst h
      simp only [if_pos rfl]
      cases hs : splitOnChar '\n' cs with
      | nil => exact absurd hs (splitOnChar_ne_nil '\n' cs)
      | cons l ls => rw [hs] at ih; simpa [joinNl] using ih
    · rw [if_neg h]
      cases hs : splitOnChar '\n' cs with
      | nil => exact absurd hs (splitOnChar_ne_nil '\n' cs)
      | cons l ls =>
        rw [hs] at ih
        cases ls with
        | nil => simpa [joinNl] using ih
        | cons l2 ls2 => simpa [joinNl] using ih

theorem mem_splitOnChar_not_mem (sep : Char) (cs : List Char) :
    ∀ l ∈ splitOnChar sep cs, sep ∉ l := by
  induction cs with
  | nil => intro l hl; simp [splitOnChar] at hl; simp [hl]
  | cons c cs ih =>
    intro l hl
    simp only [splitOnChar] at hl
    by_cases h : c = sep
    · rw [if_pos h] at hl
      rcases List.mem_cons.mp hl with hl | hl
      · simp [hl]
      · exact ih l hl
    · rw [if_neg h] at hl
      cases hs : splitOnChar sep cs with
      | nil => exact absurd hs (splitOnChar_ne_nil sep cs)
      | cons m ms =>
        rw [hs] at hl
        rcases List.mem_cons.mp hl with hl | hl
        · subst hl
          intro hmem
          rcases List.mem_cons.mp hmem with hc | hc
          · exact h hc.symm
          · exact ih m (hs ▸ List.mem_cons_self m ms) hc
        · exact ih l (hs ▸ List.mem_cons_of_mem m hl)

/-- splitOnChar distributes over an append whose left part is
separator-free and is followed by an explicit separator. -/
theorem splitOnChar_append_sep (sep : Char) (xs ys : List Char)
    (h : sep ∉ xs) :
    splitOnChar sep (xs ++ sep :: ys) = xs :: splitOnChar sep ys := by
  induction xs with
  | nil => simp [splitOnChar]
  | cons c cs ih =>
    have hc : c ≠ sep := fun hcs => h (hcs ▸ List.mem_cons_self c cs)
    have hcs' : sep ∉ cs := fun hm => h (List.mem_cons_of_mem c hm)
    simp only [List.cons_append, splitOnChar, List.append_eq, if_neg hc, ih hcs']

/-! ## Mbox splitter (0-mbox_to_eml.py, split_mbox)

The source splits the mbox text with the regular expression
  (?:^|\n)From [^\n]+\n
(re.split, no MULTILINE flag, so the start anchor matches only at position
0 of the whole text), maps str.strip over the pieces and keeps the
non-empty ones.

We model the text by its newline decomposition, splitOnChar newline: every
element but the last is newline-terminated.  A match of the separator
regex consumes an entire newline-terminated line that starts with the
five characters of the From token followed by at least one more character,
together with the newline (if any) that precedes the line.  Consequences
reflected in goSplitTerm below, all derived from re.split semantics:
  * the final element of the decomposition is never a separator (its
    terminating newline is missing);
  * a line right after a separator cannot itself be a separator (the
    newline before it was consumed by the previous match), except that
    nothing is needed at position 0, where the start anchor applies;
  * the stretch of lines between two separators forms one piece. -/

/-- Does the line begin with the literal characters of the mbox From
token (the F, r, o, m and space characters)? -/
def hasFromStart (l : List Char) : Bool :=
  List.isPrefixOf ['F', 'r', 'o', 'm', ' '] l

/-- A newline-terminated line that the separator regex accepts: the From
token plus at least one further character. -/
def isSepLine (l : List Char) : Bool :=
  hasFromStart l && decide (6 ≤ l.length)

/-- Walk the newline-terminated lines.  atStart is true only at position 0
(the regex start anchor); nlAvail records whether the newline preceding
the current line is still available (it is not, right after a separator
match, which consumed it).  Returns the pending segment (reversed) and the
finished segments. -/
def goSplitTerm : Bool → Bool → List (List Char) → List (List Char) →
    List (List (List Char)) → List (List Char) × List (List (List Char))
  | _, _, [], acc, segs => (acc, segs)
  | atStart, nlAvail, l :: rest, acc, segs =>
    if isSepLine l && (atStart || nlAvail) then
      goSplitTerm false false rest [] (segs ++ [acc.reverse])
    else
      goSplitTerm false true rest (l :: acc) segs

/-- The text of one segment: its lines rejoined, then str.strip. -/
def segText (seg : List (List Char)) : List Char := pyStrip (joinNl seg)

/-- Keep a stripped segment when it is non-empty (the comprehension
filter of the source). -/
def segKeep (seg : List (List Char)) : Option (List Char) :=
  if segText seg = [] then none else some (segText seg)

/-- Model of split_mbox: split at the separator regex, strip every piece,
keep the non-empty ones. -/
def splitMbox (cs : List Char) : List (List Char) :=
  let lines := splitOnChar '\n' cs
  let p := goSplitTerm true false lines.dropLast [] []
  let segs := p.2 ++ [p.1.reverse ++ [lines.getLastD []]]
  segs.filterMap segKeep

/-! ## Mbox assembler (3-eml_to_mbox.py, convert_to_mbox writing loop)

For each message the source writes the separator line returned by
create_mbox_separator (the From token, the sender address, a space and the
formatted date, newline-terminated), then every line of the .eml file with
a > prepended when the line begins with the From token, then one extra
newline. -/

/-- One message as the assembler sees it: the bare sender address, the
already-formatted date string of the separator line, and the full text of
the .eml file. -/
structure AMsg where
  fromAddr : List Char
  dateStr : List Char
  content : List Char
deriving DecidableEq, Repr

/-- create_mbox_separator without its trailing newline: the From token,
the address, a space, the formatted date. -/
def sepLineOf (m : AMsg) : List Char :=
  'F' :: 'r' :: 'o' :: 'm' :: ' ' :: (m.fromAddr ++ ' ' :: m.dateStr)

/-- The escaping applied to each line: prepend > when the line begins with
the From token (the startswith test of the source). -/
def escLine (l : List Char) : List Char :=
  if hasFromStart l then '>' :: l else l

/-- The lines of a message content after escaping. -/
def escLines (c : List Char) : List (List Char) :=
  (splitOnChar '\n' c).map escLine

/-- The escaped content as flat text. -/
def escapeContent (c : List Char) : List Char := joinNl (escLines c)

/-- Model of the writing loop of convert_to_mbox: for each message, the
separator line, a newline, the escaped content, a final newline — in the
exact order of the email_files list. -/
def assembleFrom : List AMsg → List Char
  | [] => []
  | m :: ms => sepLineOf m ++ '\n' :: (escapeContent m.content ++ '\n' :: assembleFrom ms)

/-! ## Round-trip lemmas for splitMbox after assembleFrom -/

theorem hasFromStart_escLine (l : List Char) : hasFromStart (escLine l) = false := by
  unfold escLine
  cases hF : hasFromStart l with
  | true =>
    simp only [if_pos rfl]
    simp [hasFromStart, List.isPrefixOf]
  | false => simp [hF]

theorem isSepLine_escLine (l : List Char) : isSepLine (escLine l) = false := by
  simp [isSepLine, hasFromStart_escLine]

theorem isSepLine_sepLineOf (m : AMsg) : isSepLine (sepLineOf m) = true := by
  unfold isSepLine sepLineOf
  rw [Bool.and_eq_true]
  refine ⟨by simp [hasFromStart, List.isPrefixOf], ?_⟩
  rw [decide_eq_true_eq]
  simp only [List.length_cons, List.length_append]
  omega

theorem nl_not_mem_sepLineOf (m : AMsg) (h1 : '\n' ∉ m.fromAddr) (h2 : '\n' ∉ m.dateStr) :
    '\n' ∉ sepLineOf m := by
  unfold sepLineOf
  intro hmem
  simp only [List.mem_cons, List.mem_append] at hmem
  rcases hmem with h | h | h | h | h | h | h | h
  all_goals first
    | exact absurd h (by decide)
    | exact h1 h
    | exact h2 h

theorem escLines_ne_nil (c : List Char) : escLines c ≠ [] := by
  unfold escLines
  intro h
  exact splitOnChar_ne_nil '\n' c (List.map_eq_nil_iff.mp h)

theorem isSepLine_of_mem_escLines (c : List Char) : ∀ l ∈ escLines c, isSepLine l = false := by
  intro l hl
  rcases List.mem_map.mp hl with ⟨x, _, hx⟩
  exact hx ▸ isSepLine_escLine x

theorem nl_not_mem_escLines (c : List Char) : ∀ l ∈ escLines c, '\n' ∉ l := by
  intro l hl
  rcases List.mem_map.mp hl with ⟨x, hxmem, hx⟩
  have hxnl : '\n' ∉ x := mem_splitOnChar_not_mem '\n' c x hxmem
  subst hx
  unfold escLine
  by_cases hF : hasFromStart x
  · rw [if_pos hF]
    intro hmem
    rcases List.mem_cons.mp hmem with h | h
    · exact absurd h.symm (by decide)
    · exact hxnl h
  · rw [if_neg hF]; exact hxnl

/-- Splitting the join of newline-free pieces followed by an explicit
newline and a remainder recovers the pieces. -/
theorem splitOnChar_joinNl_append (L : List (List Char)) (ys : List Char)
    (hne : L ≠ []) (hfree : ∀ l ∈ L, '\n' ∉ l) :
    splitOnChar '\n' (joinNl L ++ '\n' :: ys) = L ++ splitOnChar '\n' ys := by
  induction L with
  | nil => exact absurd rfl hne
  | cons l L ih =>
    cases L with
    | nil =>
      simpa [joinNl] using
        splitOnChar_append_sep '\n' l ys (hfree l (List.mem_cons_self l []))
    | cons l2 L2 =>
      have hl : '\n' ∉ l := hfree l (List.mem_cons_self _ _)
      have hrest : ∀ x ∈ l2 :: L2, '\n' ∉ x := fun x hx => hfree x (List.mem_cons_of_mem _ hx)
      have step : joinNl (l :: l2 :: L2) ++ '\n' :: ys
          = l ++ '\n' :: (joinNl (l2 :: L2) ++ '\n' :: ys) := by
        simp [joinNl]
      rw [step, splitOnChar_append_sep '\n' l _ hl, ih (by simp) hrest]
      simp

/-- The newline decomposition of the assembled stream: each message
contributes its separator line then its escaped lines, and the final
written newline leaves one trailing empty piece. -/
def msgsLines : List AMsg → List (List Char)
  | [] => []
  | m :: ms => sepLineOf m :: (escLines m.content ++ msgsLines ms)

theorem splitOnChar_assembleFrom (msgs : List AMsg)
    (h : ∀ m ∈ msgs, '\n' ∉ m.fromAddr ∧ '\n' ∉ m.dateStr) :
    splitOnChar '\n' (assembleFrom msgs) = msgsLines msgs ++ [[]] := by
  induction msgs with
  | nil => rfl
  | cons m ms ih =>
    have hm := h m (List.mem_cons_self m ms)
    have hms : ∀ x ∈ ms, '\n' ∉ x.fromAddr ∧ '\n' ∉ x.dateStr :=
      fun x hx => h x (List.mem_cons_of_mem _ hx)
    have hsep : '\n' ∉ sepLineOf m := nl_not_mem_sepLineOf m hm.1 hm.2
    show splitOnChar '\n'
        (sepLineOf m ++ '\n' :: (escapeContent m.content ++ '\n' :: assembleFrom ms)) = _
    rw [splitOnChar_append_sep '\n' _ _ hsep]
    show sepLineOf m :: splitOnChar '\n' (joinNl (escLines m.content) ++ '\n' :: assembleFrom ms) = _
    rw [splitOnChar_joinNl_append _ _ (escLines_ne_nil m.content) (nl_not_mem_escLines m.content),
      ih hms]
    simp [msgsLines]

/-- Lines that are not separator lines are absorbed into the pending
segment, whatever the anchor flags. -/
theorem goSplitTerm_content (E : List (List Char)) :
    ∀ (a nl : Bool) (rest : List (List Char)) (acc : List (List Char))
      (segs : List (List (List Char))),
    (∀ l ∈ E, isSepLine l = false) →
    goSplitTerm a nl (E ++ rest) acc segs =
      goSplitTerm (if E.isEmpty then a else false) (if E.isEmpty then nl else true)
        rest (E.reverse ++ acc) segs := by
  induction E with
  | nil => intro a nl rest acc segs _; simp [List.isEmpty]
  | cons l E ih =>
    intro a nl rest acc segs h
    have hl : isSepLine l = false := h l (List.mem_cons_self _ _)
    have hE : ∀ x ∈ E, isSepLine x = false := fun x hx => h x (List.mem_cons_of_mem _ hx)
    rw [List.cons_append]
    show goSplitTerm a nl (l :: (E ++ rest)) acc segs = _
    rw [goSplitTerm, hl]
    simp only [Bool.false_and, Bool.false_eq_true, if_false]
    rw [ih false true rest (l :: acc) segs hE]
    simp [List.isEmpty_cons, ite_self]

/-- The main invariant: starting just after a separator match, a stretch
of content lines followed by the remaining message blocks produces one
segment per message boundary. -/
theorem goSplitTerm_chain (msgs : List AMsg) :
    ∀ (E : List (List Char)) (segs : List (List (List Char))),
    E ≠ [] → (∀ l ∈ E, isSepLine l = false) →
    goSplitTerm false false (E ++ msgsLines msgs) [] segs =
      (((msgs.map (fun m => escLines m.content)).getLastD E).reverse,
       segs ++ (E :: msgs.map (fun m => escLines m.content)).dropLast) := by
  induction msgs with
  | nil =>
    intro E segs hne hE
    have hstep := goSplitTerm_content E false false [] [] segs hE
    rw [List.append_nil] at hstep
    have hEi : E.isEmpty = false := by
      cases E with
      | nil => exact absurd rfl hne
      | cons x xs => rfl
    rw [hEi] at hstep
    simp only [Bool.false_eq_true, if_false] at hstep
    rw [msgsLines, List.append_nil, hstep]
    show (E.reverse ++ [], segs) = _
    simp [List.getLastD]
  | cons m ms ih =>
    intro E segs hne hE
    have hEi : E.isEmpty = false := by
      cases E with
      | nil => exact absurd rfl hne
      | cons x xs => rfl
    rw [msgsLines, goSplitTerm_content E false false _ [] segs hE, hEi]
    simp only [Bool.false_eq_true, if_false]
    show goSplitTerm false true (sepLineOf m :: (escLines m.content ++ msgsLines ms))
        (E.reverse ++ []) segs = _
    rw [goSplitTerm, isSepLine_sepLineOf]
    simp only [Bool.true_and, Bool.false_or, if_true, eq_self_iff_true]
    rw [List.append_nil, List.reverse_reverse]
    rw [ih (escLines m.content) (segs ++ [E]) (escLines_ne_nil m.content)
      (isSepLine_of_mem_escLines m.content)]
    rw [List.map_cons, List.getLastD_cons, List.dropLast_cons₂]
    simp [List.append_assoc]

theorem joinNl_cons_cons (l l2 : List Char) (ls : List (List Char)) :
    joinNl (l :: l2 :: ls) = l ++ '\n' :: joinNl (l2 :: ls) := rfl

/-- joinNl of a non-empty list with one trailing empty piece appends a
newline. -/
theorem joinNl_concat_nil (L : List (List Char)) (hne : L ≠ []) :
    joinNl (L ++ [[]]) = joinNl L ++ ['\n'] := by
  induction L with
  | nil => exact absurd rfl hne
  | cons l L ih =>
    cases L with
    | nil => simp [joinNl]
    | cons l2 L2 =>
      have h2 : joinNl ((l2 :: L2) ++ [[]]) = joinNl (l2 :: L2) ++ ['\n'] := ih (by simp)
      calc joinNl ((l :: l2 :: L2) ++ [[]])
          = joinNl (l :: l2 :: (L2 ++ [[]])) := by simp
        _ = l ++ '\n' :: joinNl (l2 :: (L2 ++ [[]])) := joinNl_cons_cons l l2 (L2 ++ [[]])
        _ = l ++ '\n' :: joinNl ((l2 :: L2) ++ [[]]) := by simp
        _ = l ++ '\n' :: (joinNl (l2 :: L2) ++ ['\n']) := by rw [h2]
        _ = joinNl (l :: l2 :: L2) ++ ['\n'] := by rw [joinNl_cons_cons]; simp

theorem dropWhile_concat_ws (xs : List Char) :
    List.dropWhile isPySpace (xs ++ ['\n']) =
      if List.dropWhile isPySpace xs = [] then [] else List.dropWhile isPySpace xs ++ ['\n'] := by
  induction xs with
  | nil => simp [List.dropWhile, isPySpace]
  | cons c cs ih =>
    by_cases hc : isPySpace c
    · simpa [List.dropWhile_cons, hc] using ih
    · simp [List.dropWhile_cons, hc]

/-- str.strip absorbs a trailing newline. -/
theorem pyStrip_concat_nl (xs : List Char) : pyStrip (xs ++ ['\n']) = pyStrip xs := by
  unfold pyStrip
  rw [dropWhile_concat_ws xs]
  by_cases h : List.dropWhile isPySpace xs = []
  · simp [h, List.dropWhile]
  · rw [if_neg h]
    have : (List.dropWhile isPySpace xs ++ ['\n']).reverse
        = '\n' :: (List.dropWhile isPySpace xs).reverse := by simp
    rw [this, List.dropWhile_cons]
    simp [isPySpace]

theorem segKeep_nil : segKeep [] = none := rfl

/-- The final block of segments: all but the last message segment appear
verbatim, the last one carries the trailing empty line. -/
theorem filterMap_segKeep_blocks (L : List (List (List Char))) :
    L ≠ [] → (∀ X ∈ L, X ≠ [] ∧ pyStrip (joinNl X) ≠ []) →
    (L.dropLast ++ [L.getLastD [] ++ [[]]]).filterMap segKeep =
      L.map (fun X => pyStrip (joinNl X)) := by
  induction L with
  | nil => intro hne _; exact absurd rfl hne
  | cons X L ih =>
    intro _ hall
    have hX := hall X (List.mem_cons_self _ _)
    cases L with
    | nil =>
      have hj : segText (X ++ [[]]) = pyStrip (joinNl X) := by
        unfold segText
        rw [joinNl_concat_nil X hX.1, pyStrip_concat_nl]
      simp [List.filterMap, segKeep, hj, hX.2]
    | cons Y L2 =>
      have hrest : ∀ Z ∈ Y :: L2, Z ≠ [] ∧ pyStrip (joinNl Z) ≠ [] :=
        fun Z hZ => hall Z (List.mem_cons_of_mem _ hZ)
      have hkeep : segKeep X = some (pyStrip (joinNl X)) := by
        unfold segKeep segText
        rw [if_neg hX.2]
      have hgl : (Y :: L2).getLastD X = (Y :: L2).getLastD [] := by
        rw [List.getLastD_cons, List.getLastD_cons]
      rw [List.dropLast_cons₂, List.getLastD_cons, hgl, List.cons_append,
        List.filterMap_cons, hkeep, ih (by simp) hrest]
      simp

/-- C2 (amended): assembling a sequence of well-formed messages (sender
and date text free of newlines, escaped content not whitespace-only) and
splitting the result yields exactly one message per original, in order;
each returned message is the whitespace-stripped ESCAPED content of the
original — every line that began with the From token still carries the
prepended quote character, because the splitter performs no unescaping. -/
theorem splitMbox_assembleFrom (msgs : List AMsg)
    (h : ∀ m ∈ msgs, '\n' ∉ m.fromAddr ∧ '\n' ∉ m.dateStr ∧
        pyStrip (escapeContent m.content) ≠ []) :
    splitMbox (assembleFrom msgs) = msgs.map (fun m => pyStrip (escapeContent m.content)) := by
  have hlines : splitOnChar '\n' (assembleFrom msgs) = msgsLines msgs ++ [[]] :=
    splitOnChar_assembleFrom msgs (fun m hm => ⟨(h m hm).1, (h m hm).2.1⟩)
  simp only [splitMbox]
  rw [hlines, List.dropLast_concat, List.getLastD_concat]
  cases msgs with
  | nil => rfl
  | cons m ms =>
    rw [msgsLines]
    rw [goSplitTerm, isSepLine_sepLineOf]
    simp only [Bool.true_and, Bool.true_or, if_true, eq_self_iff_true]
    rw [goSplitTerm_chain ms (escLines m.content) ([] ++ [List.reverse []])
      (escLines_ne_nil m.content) (isSepLine_of_mem_escLines m.content)]
    have hL : ∀ X ∈ escLines m.content :: ms.map (fun x => escLines x.content),
        X ≠ [] ∧ pyStrip (joinNl X) ≠ [] := by
      intro X hX
      rcases List.mem_cons.mp hX with hX | hX
      · subst hX
        exact ⟨escLines_ne_nil m.content, (h m (List.mem_cons_self _ _)).2.2⟩
      · rcases List.mem_map.mp hX with ⟨x, hxmem, hxeq⟩
        subst hxeq
        exact ⟨escLines_ne_nil x.content, (h x (List.mem_cons_of_mem _ hxmem)).2.2⟩
    have hmain := filterMap_segKeep_blocks
      (escLines m.content :: ms.map (fun x => escLines x.content)) (by simp) hL
    rw [List.getLastD_cons] at hmain
    simp only [List.reverse_nil, List.nil_append, List.reverse_reverse]
    simp only [List.append_assoc, List.singleton_append, List.cons_append]
    have hskip : ∀ L : List (List (List Char)),
        List.filterMap segKeep ([] :: L) = List.filterMap segKeep L := fun L => rfl
    rw [hskip]
    simp only [List.nil_append]
    rw [hmain]
    simp [escapeContent]

theorem dropLast_append_getLastD {α : Type} (l : List (List α)) (hne : l ≠ []) :
    l.dropLast ++ [l.getLastD []] = l := by
  induction l with
  | nil => exact absurd rfl hne
  | cons x l ih =>
    cases l with
    | nil => rfl
    | cons y l2 =>
      have hgl : (y :: l2).getLastD x = (y :: l2).getLastD ([] : List α) := by
        rw [List.getLastD_cons, List.getLastD_cons]
      rw [List.dropLast_cons₂, List.getLastD_cons, hgl, List.cons_append, ih (by simp)]

/-- Behaviour of the splitter on input without any separator line: the
whole text comes back as one stripped piece (or nothing when the text is
whitespace-only). -/
theorem goSplitTerm_nil (a nl : Bool) (acc : List (List Char))
    (segs : List (List (List Char))) : goSplitTerm a nl [] acc segs = (acc, segs) := rfl

theorem splitMbox_no_sep (cs : List Char)
    (h : ∀ l ∈ (splitOnChar '\n' cs).dropLast, isSepLine l = false) :
    splitMbox cs = if pyStrip cs = [] then [] else [pyStrip cs] := by
  simp only [splitMbox]
  have hstep := goSplitTerm_content ((splitOnChar '\n' cs).dropLast) true false [] [] [] h
  rw [List.append_nil] at hstep
  rw [hstep, goSplitTerm_nil]
  simp only [List.append_nil, List.nil_append, List.reverse_reverse]
  rw [dropLast_append_getLastD _ (splitOnChar_ne_nil '\n' cs)]
  have hseg : segText (splitOnChar '\n' cs) = pyStrip cs := by
    unfold segText
    rw [joinNl_splitOnChar]
  by_cases hp : pyStrip cs = []
  · simp [List.filterMap, segKeep, hseg, hp]
  · simp [List.filterMap, segKeep, hseg, hp]

/-- Every message the splitter returns is non-empty (empty and
whitespace-only segments are discarded). -/
theorem splitMbox_mem_ne_nil (cs : List Char) : ∀ s ∈ splitMbox cs, s ≠ [] := by
  intro s hs
  simp only [splitMbox] at hs
  rcases List.mem_filterMap.mp hs with ⟨seg, _, hkeep⟩
  unfold segKeep at hkeep
  by_cases hp : segText seg = []
  · rw [if_pos hp] at hkeep; cases hkeep
  · rw [if_neg hp] at hkeep
    cases hkeep
    exact hp

/-! ## Timestamps

A resolved timestamp; external date parsing libraries are modelled as
oracles producing values of this type. -/

structure DateT where
  year : Nat
  month : Nat
  day : Nat
  hour : Nat
  minute : Nat
  second : Nat
deriving DecidableEq, Repr

/-- An order-embedding of timestamps into Nat (fields are compared
lexicographically, as datetime comparison does). -/
def dateKey (d : DateT) : Nat :=
  ((((d.year * 13 + d.month) * 32 + d.day) * 25 + d.hour) * 61 + d.minute) * 61 + d.second

/-- Chronological comparison of two timestamps. -/
def dateLeB (a b : DateT) : Bool := dateKey a ≤ dateKey b

/-- Outcome of a call to an external date parsing routine, as the source
distinguishes them: a parsed value, a falsy None result, or a raised
exception. -/
inductive RfcRes where
  | ok : DateT → RfcRes
  | noneR : RfcRes
  | exn : RfcRes
deriving DecidableEq, Repr

/-! ## Assembler input scan (3-eml_to_mbox.py, get_email_date_and_sender
and the email_files construction of convert_to_mbox)

convert_to_mbox iterates input_path.rglob in traversal order, appending
(date, from_addr, path) for every file whose extraction succeeds, and then
writes the mbox iterating that very list: despite the comment above the
writing loop of the source, no sort is applied between construction and
emission. -/

/-- One .eml file as the assembler stage sees it: the Date header text
(empty when absent), the From header, the filesystem modification time,
and the file content. -/
structure MFile where
  path : List Char
  dateHeader : List Char
  fromHeader : List Char
  mtime : DateT
  content : List Char
deriving DecidableEq, Repr

/-- The address extraction of get_email_date_and_sender: when both angle
brackets occur, the text between the first opening bracket and the next
closing one (Python split twice); otherwise the stripped header. -/
def extractFromAddr (h : List Char) : List Char :=
  if h.contains '<' && h.contains '>' then
    List.takeWhile (fun c => c ≠ '>')
      (List.takeWhile (fun c => c ≠ '<') (List.drop 1 (List.dropWhile (fun c => c ≠ '<') h)))
  else pyStrip h

/-- Model of get_email_date_and_sender together with the caller's
filter (if date and from_addr).  A raised parse exception gives the
(None, None) return of the source; a falsy parse result gives a None
date; both make the caller skip the file. -/
def getEmailDateAndSender (rfc : List Char → RfcRes) (f : MFile) : Option (DateT × List Char) :=
  let od : Option (Option DateT) :=
    if f.dateHeader = [] then some (some f.mtime)
    else
      match rfc f.dateHeader with
      | .ok d => some (some d)
      | .noneR => some none
      | .exn => none
  match od with
  | none => none
  | some none => none
  | some (some d) =>
    let addr0 := extractFromAddr f.fromHeader
    let addr := if addr0 = [] then "unknown@unknown.com".toList else addr0
    some (d, addr)

/-- The email_files list in the order convert_to_mbox builds and then
writes it: source traversal order, with no sorting step.  Each entry is
the resolved date, the sender and the file content about to be copied. -/
def emissionOrder (rfc : List Char → RfcRes) (files : List MFile) :
    List (DateT × List Char × List Char) :=
  files.filterMap (fun f =>
    match getEmailDateAndSender rfc f with
    | some p => some (p.1, p.2, f.content)
    | none => none)

/-! ## Deduplicator (2-delete_duplicates.py)

get_email_key reads the file, parses it and derives the identity key from
the Message-ID header, or, when the stripped Message-ID is empty, from the
From, To and Date headers.  The raw file content is kept only as metadata
for the later selection; the key never reads it.  We model a file by its
parsed header fields plus its raw content and path. -/

structure FileRec where
  path : List Char
  messageId : List Char
  fromH : List Char
  toH : List Char
  dateH : List Char
  content : List Char
deriving DecidableEq, Repr

/-- The fallback composite: lowered-then-stripped From and To, stripped
Date, joined with the bar character (the f-string of the source). -/
def compositeKey (f : FileRec) : List Char :=
  pyStrip (lowerStr f.fromH) ++ '|' :: (pyStrip (lowerStr f.toH) ++ '|' :: pyStrip f.dateH)

/-- Model of get_email_key: the stripped Message-ID, lowercased, when it
is non-empty; otherwise the composite key. -/
def getEmailKey (f : FileRec) : List Char :=
  if pyStrip f.messageId = [] then compositeKey f
  else lowerStr (pyStrip f.messageId)

/-- The grouping condition stated by the specification (written from the
spec's words, for comparison with getEmailKey): same lowercased non-empty
Message-ID, or both Message-IDs missing and the composite keys equal. -/
def specSameKey (a b : FileRec) : Prop :=
  (pyStrip a.messageId ≠ [] ∧ pyStrip b.messageId ≠ [] ∧
    lowerStr (pyStrip a.messageId) = lowerStr (pyStrip b.messageId))
  ∨ (pyStrip a.messageId = [] ∧ pyStrip b.messageId = [] ∧ compositeKey a = compositeKey b)

instance (a b : FileRec) : Decidable (specSameKey a b) := by
  unfold specSameKey
  infer_instance

/-- The selection score of select_best_version: the count of Unicode
replacement characters in the raw content, then the length of the path
string. -/
def dupScore (f : FileRec) : Nat × Nat :=
  (f.content.count '�', f.path.length)

/-- Strict lexicographic comparison of scores, the tuple < of Python. -/
def scoreLt (p q : Nat × Nat) : Prop :=
  p.1 < q.1 ∨ (p.1 = q.1 ∧ p.2 < q.2)

instance (p q : Nat × Nat) : Decidable (scoreLt p q) := by
  unfold scoreLt
  infer_instance

/-- One comparison step of Python min: the candidate replaces the
current best only when its key is strictly smaller. -/
def selStep (best e : FileRec) : FileRec :=
  if scoreLt (dupScore e) (dupScore best) then e else best

/-- Model of select_best_version: Python min with a key function, which
keeps the earliest element among those of minimal key. -/
def selectBestVersion : List FileRec → Option FileRec
  | [] => none
  | x :: xs => some (xs.foldl selStep x)

/-- One step of the defaultdict append of process_duplicates. -/
def addToGroups (gs : List (List Char × List FileRec)) (k : List Char) (f : FileRec) :
    List (List Char × List FileRec) :=
  match gs with
  | [] => [(k, [f])]
  | (k', l) :: rest => if k' = k then (k', l ++ [f]) :: rest else (k', l) :: addToGroups rest k f

/-- The duplicates mapping after the traversal loop of process_duplicates:
files are visited in traversal order and appended to their key's group. -/
def buildGroups (files : List FileRec) : List (List Char × List FileRec) :=
  files.foldl (fun gs f => addToGroups gs (getEmailKey f) f) []

/-- Group lookup by key. -/
def findGroup (gs : List (List Char × List FileRec)) (k : List Char) : Option (List FileRec) :=
  match gs with
  | [] => none
  | (k', l) :: rest => if k' = k then some l else findGroup rest k

theorem findGroup_addToGroups (gs : List (List Char × List FileRec)) (k k' : List Char)
    (f : FileRec) :
    findGroup (addToGroups gs k' f) k =
      if k' = k then some ((findGroup gs k).getD [] ++ [f]) else findGroup gs k := by
  induction gs with
  | nil =>
    by_cases h : k' = k
    · simp [addToGroups, findGroup, h]
    · simp [addToGroups, findGroup, h]
  | cons g rest ih =>
    obtain ⟨kg, lg⟩ := g
    by_cases h1 : kg = k'
    · subst h1
      simp only [addToGroups, if_pos rfl]
      by_cases h2 : kg = k
      · simp [findGroup, h2]
      · simp [findGroup, h2, if_neg h2]
    · simp only [addToGroups, if_neg h1]
      by_cases h2 : kg = k
      · subst h2
        have hne : ¬ k' = kg := fun he => h1 he.symm
        simp [findGroup, hne]
      · simp [findGroup, h2, ih]

theorem findGroup_buildGroups_acc (files : List FileRec) :
    ∀ (gs : List (List Char × List FileRec)) (k : List Char),
    findGroup (files.foldl (fun gs f => addToGroups gs (getEmailKey f) f) gs) k =
      match findGroup gs k, files.filter (fun f => getEmailKey f = k) with
      | none, [] => none
      | none, l => some l
      | some l, l' => some (l ++ l') := by
  induction files with
  | nil =>
    intro gs k
    cases h : findGroup gs k with
    | none => simp [h]
    | some l => simp [h]
  | cons f files ih =>
    intro gs k
    rw [List.foldl_cons, ih]
    rw [findGroup_addToGroups]
    by_cases hk : getEmailKey f = k
    · rw [if_pos hk, List.filter_cons, if_pos (by simp [hk])]
      cases h : findGroup gs k with
      | none =>
        simp only [h, Option.getD_none, List.nil_append]
        cases files.filter (fun f => getEmailKey f = k) <;> simp
      | some l =>
        simp only [h, Option.getD_some]
        cases files.filter (fun f => getEmailKey f = k) <;> simp
    · rw [if_neg hk, List.filter_cons, if_neg (by simp [hk])]

/-- The group stored for a key is exactly the filter of the traversal
list by that key, in traversal order. -/
theorem findGroup_buildGroups (files : List FileRec) (k : List Char)
    (l : List FileRec) (h : findGroup (buildGroups files) k = some l) :
    l = files.filter (fun f => getEmailKey f = k) := by
  have := findGroup_buildGroups_acc files [] k
  rw [buildGroups] at h
  rw [this] at h
  simp only [findGroup] at h
  cases hf : files.filter (fun f => getEmailKey f = k) with
  | nil => rw [hf] at h; cases h
  | cons x xs => rw [hf] at h; cases h; rfl

theorem scoreLt_trans {p q r : Nat × Nat} (h1 : scoreLt p q) (h2 : scoreLt q r) : scoreLt p r := by
  obtain ⟨a1, a2⟩ := p; obtain ⟨b1, b2⟩ := q; obtain ⟨c1, c2⟩ := r
  simp only [scoreLt] at h1 h2 ⊢
  omega

theorem scoreLt_of_not_lt_of_lt {p q r : Nat × Nat} (h1 : ¬ scoreLt q p) (h2 : scoreLt q r) :
    scoreLt p r := by
  obtain ⟨a1, a2⟩ := p; obtain ⟨b1, b2⟩ := q; obtain ⟨c1, c2⟩ := r
  simp only [scoreLt] at h1 h2 ⊢
  omega

theorem scoreLt_of_lt_of_not_lt {p q r : Nat × Nat} (h1 : scoreLt p q) (h2 : ¬ scoreLt r q) :
    scoreLt p r := by
  obtain ⟨a1, a2⟩ := p; obtain ⟨b1, b2⟩ := q; obtain ⟨c1, c2⟩ := r
  simp only [scoreLt] at h1 h2 ⊢
  omega

theorem scoreLt_asymm {p q : Nat × Nat} (h : scoreLt p q) : ¬ scoreLt q p := by
  obtain ⟨a1, a2⟩ := p; obtain ⟨b1, b2⟩ := q
  simp only [scoreLt] at h ⊢
  omega

/-- The Python min fold returns the first element of minimal score: it
splits the list into a strictly-greater prelude, the winner, and a
remainder none of which scores strictly below it. -/
theorem foldl_selStep_first_min (xs : List FileRec) :
    ∀ x : FileRec,
    ∃ pre suf, x :: xs = pre ++ (xs.foldl selStep x) :: suf
      ∧ (∀ y ∈ x :: xs, ¬ scoreLt (dupScore y) (dupScore (xs.foldl selStep x)))
      ∧ (∀ y ∈ pre, scoreLt (dupScore (xs.foldl selStep x)) (dupScore y)) := by
  induction xs with
  | nil =>
    intro x
    refine ⟨[], [], rfl, ?_, by simp⟩
    intro y hy
    rcases List.mem_cons.mp hy with hy | hy
    · subst hy
      simp only [List.foldl_nil]
      obtain ⟨a1, a2⟩ := dupScore y
      simp only [scoreLt]
      omega
    · cases hy
  | cons e xs ih =>
    intro x
    rw [List.foldl_cons]
    by_cases hlt : scoreLt (dupScore e) (dupScore x)
    · have hstep : selStep x e = e := by rw [selStep, if_pos hlt]
      rw [hstep]
      obtain ⟨pre, suf, hdec, hmin, hpre⟩ := ih e
      refine ⟨x :: pre, suf, by rw [List.cons_append, ← hdec], ?_, ?_⟩
      · intro y hy
        rcases List.mem_cons.mp hy with hy | hy
        · subst hy
          intro hxb
          exact hmin e (List.mem_cons_self _ _) (scoreLt_trans hlt hxb)
        · exact hmin y hy
      · intro y hy
        rcases List.mem_cons.mp hy with hy | hy
        · subst hy
          exact scoreLt_of_not_lt_of_lt (hmin e (List.mem_cons_self _ _)) hlt
        · exact hpre y hy
    · have hstep : selStep x e = x := by rw [selStep, if_neg hlt]
      rw [hstep]
      obtain ⟨pre, suf, hdec, hmin, hpre⟩ := ih x
      cases pre with
      | nil =>
        simp only [List.nil_append] at hdec
        have hx : x = xs.foldl selStep x := by
          have := congrArg (fun l => l.headD x) hdec
          simpa using this
        refine ⟨[], e :: xs, ?_, ?_, by simp⟩
        · rw [List.nil_append, ← hx]
        · intro y hy
          rcases List.mem_cons.mp hy with hy | hy
          · subst hy
            exact hmin y (List.mem_cons_self _ _)
          · rcases List.mem_cons.mp hy with hy | hy
            · subst hy
              intro heb
              exact hlt (scoreLt_of_lt_of_not_lt heb (hmin x (List.mem_cons_self _ _)))
            · exact hmin y (List.mem_cons_of_mem _ hy)
      | cons p pre2 =>
        have hxp : x = p := by
          have := congrArg (fun l => l.headD x) hdec
          simpa using this
        have htail : xs = pre2 ++ (xs.foldl selStep x) :: suf := by
          have := congrArg List.tail hdec
          simpa using this
        have hbx : scoreLt (dupScore (xs.foldl selStep x)) (dupScore x) := by
          have := hpre p (List.mem_cons_self _ _)
          rw [← hxp] at this
          exact this
        refine ⟨x :: e :: pre2, suf, ?_, ?_, ?_⟩
        · rw [List.cons_append, List.cons_append, ← htail]
        · intro y hy
          rcases List.mem_cons.mp hy with hy | hy
          · subst hy
            exact hmin y (List.mem_cons_self _ _)
          · rcases List.mem_cons.mp hy with hy | hy
            · subst hy
              exact scoreLt_asymm (scoreLt_of_lt_of_not_lt hbx hlt)
            · exact hmin y (List.mem_cons_of_mem _ hy)
        · intro y hy
          rcases List.mem_cons.mp hy with hy | hy
          · subst hy; exact hbx
          · rcases List.mem_cons.mp hy with hy | hy
            · subst hy
              exact scoreLt_of_lt_of_not_lt hbx hlt
            · exact hpre y (hxp ▸ List.mem_cons_of_mem _ hy)

/-! ## Date recovery engine (1-email_date_fixer.py, parse_date_header)

The regular expressions of the source are re-implemented concretely with
re semantics: finditer enumerates non-overlapping matches left to right;
at one position, bounded repetitions are greedy with backtracking, and
alternations are tried in written order.  The external parsers
(email.utils.parsedate_to_datetime, dateutil fuzzy parse) are oracle
parameters: rfc distinguishes a parsed value, a falsy result and a raised
exception, exactly the three behaviours the source branches on; fz is the
fuzzy parser, where none covers both failure modes because the call sites
wrap it in try blocks returning None. -/

def isDigitCh (c : Char) : Bool := '0' ≤ c && c ≤ '9'

/-- The character class of the backslash-s escape (ASCII part). -/
def isWsCh (c : Char) : Bool := isPySpace c

/-- Consume exactly n digits. -/
def takeDigits : Nat → List Char → Option (List Char × List Char)
  | 0, cs => some ([], cs)
  | _ + 1, [] => none
  | n + 1, c :: cs =>
    if isDigitCh c then
      match takeDigits n cs with
      | some (d, r) => some (c :: d, r)
      | none => none
    else none

/-- Consume one or more whitespace characters, greedily (what follows in
every pattern is a non-whitespace literal, so no backtracking arises). -/
def takeWsPlus (cs : List Char) : Option (List Char × List Char) :=
  let w := cs.takeWhile isWsCh
  if w = [] then none else some (w, cs.dropWhile isWsCh)

/-- Consume a literal. -/
def takeLit : List Char → List Char → Option (List Char)
  | [], cs => some cs
  | _ :: _, [] => none
  | p :: ps, c :: cs => if c = p then takeLit ps cs else none

/-- An alternation with continuation: alternatives in written order, full
backtracking into the alternation when the continuation fails. -/
def tryAlts {α : Type} (alts : List (List Char)) (cs : List Char)
    (k : List Char → List Char → Option α) : Option α :=
  match alts with
  | [] => none
  | a :: rest =>
    match takeLit a cs with
    | some r =>
      match k a r with
      | some v => some v
      | none => tryAlts rest cs k
    | none => tryAlts rest cs k

/-- The hour-colon-minute tail of the optional time group, given the
already-consumed hour digits. -/
def matchColonMin (h : List Char) (r2 : List Char) : Option (List Char × List Char) :=
  match r2 with
  | ':' :: r3 =>
    match takeDigits 2 r3 with
    | some (mn, r4) => some (h ++ ':' :: mn, r4)
    | none => none
  | _ => none

/-- The optional trailing time group of the body patterns: whitespace then
one or two hour digits (greedy), a colon, two minute digits.  Returns the
captured time text (without the whitespace) and the rest; none means the
optional group is absent. -/
def matchTimeOpt (cs : List Char) : Option (List Char × List Char) :=
  match takeWsPlus cs with
  | none => none
  | some (_, r1) =>
    match
      (match takeDigits 2 r1 with
       | some (h, r2) => matchColonMin h r2
       | none => none) with
    | some v => some v
    | none =>
      match takeDigits 1 r1 with
      | some (h, r2) => matchColonMin h r2
      | none => none

/-- A match result at one position: group 1, the optional group 2, and
the rest of the text after the whole match. -/
def MRes : Type := List Char × Option (List Char) × List Char

/-- The month-name pattern families (long English, abbreviated English,
Norwegian) at one position, with the day-digit width fixed. -/
def matchMonthWith (n : Nat) (months : List (List Char)) (cs : List Char) : Option MRes :=
  match takeDigits n cs with
  | none => none
  | some (d, r1) =>
    match takeWsPlus r1 with
    | none => none
    | some (w1, r2) =>
      tryAlts months r2 (fun mon r3 =>
        match takeWsPlus r3 with
        | none => none
        | some (w2, r4) =>
          match takeDigits 4 r4 with
          | none => none
          | some (y, r5) =>
            let g1 := d ++ w1 ++ (mon ++ w2 ++ y)
            match matchTimeOpt r5 with
            | some (t, r6) => some (g1, some t, r6)
            | none => some (g1, none, r5))

/-- One or two day digits, greedy with backtracking. -/
def matchMonthPatAt (months : List (List Char)) (cs : List Char) : Option MRes :=
  match matchMonthWith 2 months cs with
  | some v => some v
  | none => matchMonthWith 1 months cs

/-- A dot or slash separator. -/
def matchDotSlash (cs : List Char) : Option (Char × List Char) :=
  match cs with
  | c :: r => if c = '.' ∨ c = '/' then some (c, r) else none
  | [] => none

/-- Two to four year digits, greedy (nothing that follows can fail, so no
backtracking arises). -/
def matchYearRange (cs : List Char) : Option (List Char × List Char) :=
  match takeDigits 4 cs with
  | some v => some v
  | none =>
    match takeDigits 3 cs with
    | some v => some v
    | none => takeDigits 2 cs

/-- The numeric day-month-year pattern with dot or slash separators, with
both digit widths fixed. -/
def matchNumCore (n1 n2 : Nat) (cs : List Char) : Option MRes :=
  match takeDigits n1 cs with
  | none => none
  | some (d1, r1) =>
    match matchDotSlash r1 with
    | none => none
    | some (s1, r2) =>
      match takeDigits n2 r2 with
      | none => none
      | some (d2, r3) =>
        match matchDotSlash r3 with
        | none => none
        | some (s2, r4) =>
          match matchYearRange r4 with
          | none => none
          | some (y, r5) =>
            let g1 := d1 ++ s1 :: (d2 ++ s2 :: y)
            match matchTimeOpt r5 with
            | some (t, r6) => some (g1, some t, r6)
            | none => some (g1, none, r5)

/-- Backtracking order of the two bounded repetitions: (2,2), (2,1),
(1,2), (1,1). -/
def matchNumPatAt (cs : List Char) : Option MRes :=
  match matchNumCore 2 2 cs with
  | some v => some v
  | none =>
    match matchNumCore 2 1 cs with
    | some v => some v
    | none =>
      match matchNumCore 1 2 cs with
      | some v => some v
      | none => matchNumCore 1 1 cs

/-- The ISO year-month-day pattern, with both trailing digit widths
fixed. -/
def matchIsoCore (n1 n2 : Nat) (cs : List Char) : Option MRes :=
  match takeDigits 4 cs with
  | none => none
  | some (y, r1) =>
    match r1 with
    | '-' :: r2 =>
      match takeDigits n1 r2 with
      | none => none
      | some (mo, r3) =>
        match r3 with
        | '-' :: r4 =>
          match takeDigits n2 r4 with
          | none => none
          | some (d, r5) =>
            let g1 := y ++ '-' :: (mo ++ '-' :: d)
            match matchTimeOpt r5 with
            | some (t, r6) => some (g1, some t, r6)
            | none => some (g1, none, r5)
        | _ => none
    | _ => none

def matchIsoPatAt (cs : List Char) : Option MRes :=
  match matchIsoCore 2 2 cs with
  | some v => some v
  | none =>
    match matchIsoCore 2 1 cs with
    | some v => some v
    | none =>
      match matchIsoCore 1 2 cs with
      | some v => some v
      | none => matchIsoCore 1 1 cs

/-- The compact eight-digit pattern with its optional underscore and
four-digit time group. -/
def matchCompact8At (cs : List Char) : Option MRes :=
  match takeDigits 8 cs with
  | none => none
  | some (d8, r1) =>
    match r1 with
    | '_' :: r2 =>
      match takeDigits 4 r2 with
      | some (d4, r3) => some (d8, some d4, r3)
      | none => some (d8, none, r1)
    | _ =>
      match takeDigits 4 r1 with
      | some (d4, r3) => some (d8, some d4, r3)
      | none => some (d8, none, r1)

/-- The compact six-digit pattern (a single group). -/
def matchCompact6At (cs : List Char) : Option MRes :=
  match takeDigits 6 cs with
  | some (d6, r) => some (d6, none, r)
  | none => none

/-- try_parse_datetime_parts: with a time component, parse the date and
time joined with one space; otherwise parse the date text alone. -/
def parseParts (fz : List Char → Option DateT) (g1 : List Char) (g2 : Option (List Char)) :
    Option DateT :=
  match g2 with
  | some t => fz (g1 ++ ' ' :: t)
  | none => fz g1

/-- finditer with early exit: enumerate the non-overlapping matches left
to right and return the first one whose parse succeeds. -/
def runPat (matchAt : List Char → Option MRes) (fz : List Char → Option DateT) :
    Nat → List Char → Option DateT
  | 0, _ => none
  | fuel + 1, cs =>
    match matchAt cs with
    | some (g1, g2, rest) =>
      match parseParts fz g1 g2 with
      | some d => some d
      | none => runPat matchAt fz fuel rest
    | none =>
      match cs with
      | [] => none
      | _ :: cs' => runPat matchAt fz fuel cs'

def monthsLong : List (List Char) :=
  ["January", "February", "March", "April", "May", "June", "July", "August",
   "September", "October", "November", "December"].map String.toList

def monthsAbbr : List (List Char) :=
  ["Jan", "Feb", "Mar", "Apr", "May", "Jun", "Jul", "Aug", "Sep", "Oct", "Nov",
   "Dec"].map String.toList

def monthsNo : List (List Char) :=
  ["januar", "februar", "mars", "april", "mai", "juni", "juli", "august",
   "september", "oktober", "november", "desember"].map String.toList

/-- The ordered pattern list of search_content. -/
def datePatterns : List (List Char → Option MRes) :=
  [matchMonthPatAt monthsLong, matchMonthPatAt monthsAbbr, matchMonthPatAt monthsNo,
   matchNumPatAt, matchIsoPatAt, matchCompact8At, matchCompact6At]

def runPats (fz : List Char → Option DateT) (fuel : Nat) :
    List (List Char → Option MRes) → List Char → Option DateT
  | [], _ => none
  | p :: ps, text =>
    match runPat p fz fuel text with
    | some d => some d
    | none => runPats fz fuel ps text

/-- search_content: each pattern scans the whole text before the next
pattern is tried; the first successful parse wins. -/
def searchContent (fz : List Char → Option DateT) (text : List Char) : Option DateT :=
  runPats fz (text.length + 1) datePatterns text

/-- The body of a message as the engine sees it after MIME parsing: a
single decoded payload (none when decoding raised), or the decoded text
parts of a multipart message in walk order (parts whose decoding raised
are skipped by the source loop and therefore absent here). -/
inductive BodyK where
  | single : Option (List Char) → BodyK
  | multi : List (List Char) → BodyK
deriving DecidableEq, Repr

/-- A message at the date recovery stage: Date header value (empty when
the header is absent or empty, both falsy in the source), body, and the
three headers of the header scan. -/
structure DRMsg where
  dateHeader : List Char
  body : BodyK
  subject : List Char
  messageId : List Char
  xCreated : List Char
deriving DecidableEq, Repr

/-- try_parse_date: the rfc parser first; a falsy result falls through to
the fuzzy parser; a raised exception is caught and gives None without
trying the fuzzy parser. -/
def tryParseDate (rfc : List Char → RfcRes) (fz : List Char → Option DateT)
    (s : List Char) : Option DateT :=
  match rfc s with
  | .ok d => some d
  | .noneR => fz s
  | .exn => none

/-- Step 1 of the chain: the declared Date header, when present and
non-empty. -/
def dateHeaderStep (rfc : List Char → RfcRes) (fz : List Char → Option DateT)
    (m : DRMsg) : Option DateT :=
  if m.dateHeader = [] then none else tryParseDate rfc fz m.dateHeader

def scanParts (fz : List Char → Option DateT) : List (List Char) → Option DateT
  | [] => none
  | p :: ps =>
    match searchContent fz p with
    | some d => some d
    | none => scanParts fz ps

/-- Step 2: the body scan. -/
def bodyScan (fz : List Char → Option DateT) : BodyK → Option DateT
  | .multi parts => scanParts fz parts
  | .single (some t) => searchContent fz t
  | .single none => none

def scanHdrs (fz : List Char → Option DateT) : List (List Char) → Option DateT
  | [] => none
  | h :: hs =>
    if h = [] then scanHdrs fz hs
    else
      match searchContent fz h with
      | some d => some d
      | none => scanHdrs fz hs

/-- Step 3: Subject, Message-ID and the vendor creation-date header, with
the same pattern list. -/
def headerScan (fz : List Char → Option DateT) (m : DRMsg) : Option DateT :=
  scanHdrs fz [m.subject, m.messageId, m.xCreated]

/-! Filename scan (step 4).  The first two patterns carry explicit time
components and go through strptime, which validates field ranges and
raises ValueError on an invalid date (the source then falls through to
the next pattern).  The date-only patterns are rejoined with the
character at index 2 of their format string before strptime; for the
compact formats that character is the percent sign of the second
directive, so the rejoined text can never parse and those entries always
fall through — only the patterns with a real separator can succeed. -/

def digitsToNat (ds : List Char) : Nat :=
  ds.foldl (fun n c => n * 10 + (c.toNat - '0'.toNat)) 0

def isLeapYear (y : Nat) : Bool := (y % 4 == 0 && y % 100 != 0) || y % 400 == 0

def daysInMonth (y m : Nat) : Nat :=
  if m = 2 then (if isLeapYear y then 29 else 28)
  else if m = 4 ∨ m = 6 ∨ m = 9 ∨ m = 11 then 30
  else 31

/-- The datetime construction at the end of strptime: in-range fields or
ValueError. -/
def mkValidDT (y mo d h mi s : Nat) : Option DateT :=
  if 1 ≤ y ∧ 1 ≤ mo ∧ mo ≤ 12 ∧ 1 ≤ d ∧ d ≤ daysInMonth y mo ∧ h ≤ 23 ∧ mi ≤ 59 ∧ s ≤ 59
  then some ⟨y, mo, d, h, mi, s⟩ else none

/-- re.search for eight digits, an underscore, six digits. -/
def find8u6 : List Char → Option (List Char × List Char)
  | [] => none
  | c :: rest =>
    match takeDigits 8 (c :: rest) with
    | some (d8, r1) =>
      (match r1 with
       | '_' :: r2 =>
         match takeDigits 6 r2 with
         | some (d6, _) => some (d8, d6)
         | none => find8u6 rest
       | _ => find8u6 rest)
    | none => find8u6 rest

/-- re.search for fourteen digits. -/
def find14 : List Char → Option (List Char)
  | [] => none
  | c :: rest =>
    match takeDigits 14 (c :: rest) with
    | some (d14, _) => some d14
    | none => find14 rest

def strpDT8 (d8 d6 : List Char) : Option DateT :=
  mkValidDT (digitsToNat (d8.take 4)) (digitsToNat ((d8.drop 4).take 2))
    (digitsToNat (d8.drop 6)) (digitsToNat (d6.take 2))
    (digitsToNat ((d6.drop 2).take 2)) (digitsToNat (d6.drop 4))

def strpDT14 (d14 : List Char) : Option DateT :=
  mkValidDT (digitsToNat (d14.take 4)) (digitsToNat ((d14.drop 4).take 2))
    (digitsToNat ((d14.drop 6).take 2)) (digitsToNat ((d14.drop 8).take 2))
    (digitsToNat ((d14.drop 10).take 2)) (digitsToNat (d14.drop 12))

/-- A three-group fixed-width digit pattern with one separator character,
at one position. -/
def matchSep3At (w1 : Nat) (sep : Char) (w2 w3 : Nat) (cs : List Char) :
    Option (List Char × List Char × List Char) :=
  match takeDigits w1 cs with
  | none => none
  | some (a, r1) =>
    match r1 with
    | s1 :: r2 =>
      if s1 = sep then
        match takeDigits w2 r2 with
        | none => none
        | some (b, r3) =>
          match r3 with
          | s2 :: r4 =>
            if s2 = sep then
              match takeDigits w3 r4 with
              | some (c, _) => some (a, b, c)
              | none => none
            else none
          | [] => none
      else none
    | [] => none

/-- re.search for such a pattern. -/
def findSep3 (w1 : Nat) (sep : Char) (w2 w3 : Nat) : List Char → Option (List Char × List Char × List Char)
  | [] => none
  | c :: rest =>
    match matchSep3At w1 sep w2 w3 (c :: rest) with
    | some v => some v
    | none => findSep3 w1 sep w2 w3 rest

/-- A year-month-day date-only pattern (four digits, separator, two, two)
parsed to midnight. -/
def trySep3YMD (sep : Char) (fn : List Char) : Option DateT :=
  match findSep3 4 sep 2 2 fn with
  | some (y, mo, d) => mkValidDT (digitsToNat y) (digitsToNat mo) (digitsToNat d) 0 0 0
  | none => none

/-- A day-month-year date-only pattern (two digits, separator, two, four)
parsed to midnight. -/
def trySep3DMY (sep : Char) (fn : List Char) : Option DateT :=
  match findSep3 2 sep 2 4 fn with
  | some (d, mo, y) => mkValidDT (digitsToNat y) (digitsToNat mo) (digitsToNat d) 0 0 0
  | none => none

/-- The date-only pattern list, in source order; the compact entries
(positions 2, 3 and 5 of the source list) always fall through, as noted
above, and are therefore behaviourally absent. -/
def dateOnlyScan (fn : List Char) : Option DateT :=
  match trySep3YMD '-' fn with
  | some d => some d
  | none =>
    match trySep3DMY '-' fn with
    | some d => some d
    | none =>
      match trySep3DMY '/' fn with
      | some d => some d
      | none =>
        match trySep3DMY '.' fn with
        | some d => some d
        | none =>
          match trySep3YMD '/' fn with
          | some d => some d
          | none => trySep3YMD '.' fn

/-- Step 4: the filename, when provided and non-empty. -/
def filenameScan (fn : List Char) : Option DateT :=
  if fn = [] then none
  else
    match
      (match find8u6 fn with
       | some (d8, d6) => strpDT8 d8 d6
       | none => none) with
    | some d => some d
    | none =>
      match
        (match find14 fn with
         | some d14 => strpDT14 d14
         | none => none) with
      | some d => some d
      | none => dateOnlyScan fn

/-- parse_date_header: the ordered fallback chain, first success wins. -/
def parseDateHeader (rfc : List Char → RfcRes) (fz : List Char → Option DateT)
    (m : DRMsg) (fn : List Char) : Option DateT :=
  match dateHeaderStep rfc fz m with
  | some d => some d
  | none =>
    match bodyScan fz m.body with
    | some d => some d
    | none =>
      match headerScan fz m with
      | some d => some d
      | none => filenameScan fn

/-! ## Batch processing (1-email_date_fixer.py, process_folder)

process_eml_file raises ValueError when parse_date_header yields nothing,
catches every exception itself and returns False; process_folder counts
True results and appends (relative path, reason) for the others, then
keeps iterating.  File writing is local and modelled as succeeding. -/

structure EFile where
  path : List Char
  msg : DRMsg
  filename : List Char
deriving DecidableEq, Repr

/-- The reason string recorded by process_folder for a False result. -/
def failReason : List Char := "Could not find or parse Date header".toList

/-- The loop of process_folder from an arbitrary accumulated state. -/
def processFolderFrom (rfc : List Char → RfcRes) (fz : List Char → Option DateT)
    (st : Nat × List (List Char × List Char)) (files : List EFile) :
    Nat × List (List Char × List Char) :=
  files.foldl (fun st f =>
    if (parseDateHeader rfc fz f.msg f.filename).isSome then (st.1 + 1, st.2)
    else (st.1, st.2 ++ [(f.path, failReason)])) st

/-- process_folder: successes counted, failures recorded with their path,
no early exit. -/
def processFolder (rfc : List Char → RfcRes) (fz : List Char → Option DateT)
    (files : List EFile) : Nat × List (List Char × List Char) :=
  processFolderFrom rfc fz (0, []) files

/-! ## Charset fallback (1-email_date_fixer.py, try_decode_with_encodings)

Bytes are Nats below 256.  Decoders return none where Python raises
UnicodeDecodeError.  The codec registry is modelled for the codec names
this chain can meet; looking up any other name raises LookupError, which
the source only guards with except UnicodeDecodeError. -/

/-- ISO-8859-1: every byte maps to the code point of the same value;
decoding can never fail. -/
def latin1Chars (bs : List Nat) : List Char :=
  bs.map (fun b => Char.ofNat (b % 256))

def latin1Dec (bs : List Nat) : Option (List Char) := some (latin1Chars bs)

def isContByte (b : Nat) : Bool := 0x80 ≤ b && b ≤ 0xBF

/-- Valid first continuation byte ranges of three-byte sequences (the
E0 overlong and ED surrogate exclusions of a strict UTF-8 decoder). -/
def validC1For3 (b c1 : Nat) : Bool :=
  if b = 0xE0 then 0xA0 ≤ c1 && c1 ≤ 0xBF
  else if b = 0xED then 0x80 ≤ c1 && c1 ≤ 0x9F
  else isContByte c1

/-- Valid first continuation byte ranges of four-byte sequences (the F0
overlong and F4 plane-limit exclusions). -/
def validC1For4 (b c1 : Nat) : Bool :=
  if b = 0xF0 then 0x90 ≤ c1 && c1 ≤ 0xBF
  else if b = 0xF4 then 0x80 ≤ c1 && c1 ≤ 0x8F
  else isContByte c1

/-- Strict UTF-8 decoding; none on the first invalid sequence. -/
def utf8Go : Nat → List Nat → Option (List Char)
  | _, [] => some []
  | 0, _ :: _ => none
  | fuel + 1, b :: rest =>
    if b < 0x80 then
      match utf8Go fuel rest with
      | some s => some (Char.ofNat b :: s)
      | none => none
    else if b < 0xC2 then none
    else if b < 0xE0 then
      match rest with
      | c1 :: r2 =>
        if isContByte c1 then
          match utf8Go fuel r2 with
          | some s => some (Char.ofNat ((b - 0xC0) * 64 + (c1 - 0x80)) :: s)
          | none => none
        else none
      | [] => none
    else if b < 0xF0 then
      match rest with
      | c1 :: c2 :: r2 =>
        if validC1For3 b c1 && isContByte c2 then
          match utf8Go fuel r2 with
          | some s =>
            some (Char.ofNat (((b - 0xE0) * 64 + (c1 - 0x80)) * 64 + (c2 - 0x80)) :: s)
          | none => none
        else none
      | _ => none
    else if b < 0xF5 then
      match rest with
      | c1 :: c2 :: c3 :: r2 =>
        if validC1For4 b c1 && isContByte c2 && isContByte c3 then
          match utf8Go fuel r2 with
          | some s =>
            some (Char.ofNat ((((b - 0xF0) * 64 + (c1 - 0x80)) * 64 + (c2 - 0x80)) * 64
              + (c3 - 0x80)) :: s)
          | none => none
        else none
      | _ => none
    else none

def utf8Dec (bs : List Nat) : Option (List Char) := utf8Go (bs.length + 1) bs

/-- UTF-8 decoding with errors replace: each maximal ill-formed subpart
becomes one replacement character (the lead byte together with its valid
continuation bytes is skipped as a unit; a stray byte is skipped alone). -/
def utf8ReplGo : Nat → List Nat → List Char
  | _, [] => []
  | 0, _ :: _ => []
  | fuel + 1, b :: rest =>
    if b < 0x80 then Char.ofNat b :: utf8ReplGo fuel rest
    else if b < 0xC2 then '�' :: utf8ReplGo fuel rest
    else if b < 0xE0 then
      match rest with
      | c1 :: r2 =>
        if isContByte c1 then Char.ofNat ((b - 0xC0) * 64 + (c1 - 0x80)) :: utf8ReplGo fuel r2
        else '�' :: utf8ReplGo fuel rest
      | [] => ['�']
    else if b < 0xF0 then
      match rest with
      | c1 :: r2 =>
        if validC1For3 b c1 then
          match r2 with
          | c2 :: r3 =>
            if isContByte c2 then
              Char.ofNat (((b - 0xE0) * 64 + (c1 - 0x80)) * 64 + (c2 - 0x80)) :: utf8ReplGo fuel r3
            else '�' :: utf8ReplGo fuel r2
          | [] => ['�']
        else '�' :: utf8ReplGo fuel rest
      | [] => ['�']
    else if b < 0xF5 then
      match rest with
      | c1 :: r2 =>
        if validC1For4 b c1 then
          match r2 with
          | c2 :: r3 =>
            if isContByte c2 then
              match r3 with
              | c3 :: r4 =>
                if isContByte c3 then
                  Char.ofNat ((((b - 0xF0) * 64 + (c1 - 0x80)) * 64 + (c2 - 0x80)) * 64
                    + (c3 - 0x80)) :: utf8ReplGo fuel r4
                else '�' :: utf8ReplGo fuel r3
              | [] => ['�']
            else '�' :: utf8ReplGo fuel r2
          | [] => ['�']
        else '�' :: utf8ReplGo fuel rest
      | [] => ['�']
    else '�' :: utf8ReplGo fuel rest

def utf8Replace (bs : List Nat) : List Char := utf8ReplGo (bs.length + 1) bs

/-- The Windows-1252 mapping of the 0x80-0x9F range (other bytes map to
their own code point). -/
def cp1252Map (b : Nat) : Nat :=
  if b = 0x80 then 0x20AC else if b = 0x82 then 0x201A else if b = 0x83 then 0x192
  else if b = 0x84 then 0x201E else if b = 0x85 then 0x2026 else if b = 0x86 then 0x2020
  else if b = 0x87 then 0x2021 else if b = 0x88 then 0x2C6 else if b = 0x89 then 0x2030
  else if b = 0x8A then 0x160 else if b = 0x8B then 0x2039 else if b = 0x8C then 0x152
  else if b = 0x8E then 0x17D else if b = 0x91 then 0x2018 else if b = 0x92 then 0x2019
  else if b = 0x93 then 0x201C else if b = 0x94 then 0x201D else if b = 0x95 then 0x2022
  else if b = 0x96 then 0x2013 else if b = 0x97 then 0x2014 else if b = 0x98 then 0x2DC
  else if b = 0x99 then 0x2122 else if b = 0x9A then 0x161 else if b = 0x9B then 0x203A
  else if b = 0x9C then 0x153 else if b = 0x9E then 0x17E else if b = 0x9F then 0x178
  else b % 256

/-- Windows-1252 (and its cp1252 alias): five bytes are undefined and
raise; the rest map through the table. -/
def win1252Dec (bs : List Nat) : Option (List Char) :=
  if bs.any (fun b => b = 0x81 || b = 0x8D || b = 0x8F || b = 0x90 || b = 0x9D) then none
  else some (bs.map (fun b => Char.ofNat (cp1252Map b)))

/-- US-ASCII: bytes above 0x7F raise. -/
def asciiDec (bs : List Nat) : Option (List Char) :=
  if bs.any (fun b => 0x80 ≤ b) then none else some (bs.map (fun b => Char.ofNat (b % 256)))

/-- The codec registry restricted to the names this program decodes with;
any other declared charset name makes the decode call raise LookupError
(modelled as a lookup failure that tryDecodeWithEncodings does not
catch). -/
def lookupCodec (name : String) : Option (List Nat → Option (List Char)) :=
  if name = "utf-8" then some utf8Dec
  else if name = "iso-8859-1" then some latin1Dec
  else if name = "windows-1252" then some win1252Dec
  else if name = "cp1252" then some win1252Dec
  else if name = "ascii" then some asciiDec
  else if name = "us-ascii" then some asciiDec
  else none

/-- The encodings list of the fallback loop, in source order. -/
def encodingsChain : List (List Nat → Option (List Char)) :=
  [utf8Dec, latin1Dec, win1252Dec, win1252Dec]

def firstDec : List (List Nat → Option (List Char)) → List Nat → Option (List Char)
  | [], _ => none
  | d :: ds, bs =>
    match d bs with
    | some s => some s
    | none => firstDec ds bs

/-- The fallback loop plus the errors-replace last resort. -/
def fallbackChain (bs : List Nat) : Except Unit (List Char) :=
  match firstDec encodingsChain bs with
  | some s => .ok s
  | none => .ok (utf8Replace bs)

/-- try_decode_with_encodings.  The 0xF8 check comes first; the ISO-8859-1
attempt it triggers is written as a fallible decode to mirror the source's
try block, although it cannot fail.  A declared charset is then tried: an
unknown codec name raises (error), a UnicodeDecodeError falls through to
the encodings loop, as does an absent charset. -/
def tryDecodeWithEncodings (declared : Option String) (bs : List Nat) :
    Except Unit (List Char) :=
  match (if bs.contains 0xF8 then latin1Dec bs else none) with
  | some s => .ok s
  | none =>
    match declared with
    | some cname =>
      match lookupCodec cname with
      | none => .error ()
      | some dec =>
        match dec bs with
        | some s => .ok s
        | none => fallbackChain bs
    | none => fallbackChain bs

/-! ## Claim C1 — assembler emission order -/

def dC19 : DateT := ⟨2019, 7, 15, 0, 0, 0⟩
def dC20 : DateT := ⟨2020, 1, 1, 0, 0, 0⟩
def dC21 : DateT := ⟨2021, 3, 1, 0, 0, 0⟩

/-- An rfc-parse oracle for the three concrete Date headers. -/
def rfcC1 : List Char → RfcRes := fun s =>
  if s = "Mon, 1 Mar 2021 00:00:00 +0000".toList then .ok dC21
  else if s = "Mon, 15 Jul 2019 00:00:00 +0000".toList then .ok dC19
  else if s = "Wed, 1 Jan 2020 00:00:00 +0000".toList then .ok dC20
  else .exn

def mfC21 : MFile :=
  ⟨"m1.eml".toList, "Mon, 1 Mar 2021 00:00:00 +0000".toList, "a@x.com".toList,
   ⟨2024, 1, 1, 0, 0, 0⟩, "A".toList⟩
def mfC19 : MFile :=
  ⟨"m2.eml".toList, "Mon, 15 Jul 2019 00:00:00 +0000".toList, "b@x.com".toList,
   ⟨2024, 1, 1, 0, 0, 0⟩, "B".toList⟩
def mfC20 : MFile :=
  ⟨"m3.eml".toList, "Wed, 1 Jan 2020 00:00:00 +0000".toList, "c@x.com".toList,
   ⟨2024, 1, 1, 0, 0, 0⟩, "C".toList⟩

/-- C1: the Mbox Assembler does NOT emit messages in ascending resolved
date order — convert_to_mbox builds email_files in directory traversal
order and writes in that same order; no sort is performed (although the
source carries a comment announcing one and its docstring promises date
order).  For three messages dated 2021-03-01, 2019-07-15, 2020-01-01
encountered in that traversal order, the emitted stream keeps exactly
that order, which is not ascending and differs from the order the claim
requires. -/
theorem c1_no_sort :
    (emissionOrder rfcC1 [mfC21, mfC19, mfC20]).map (fun t => t.1) = [dC21, dC19, dC20]
    ∧ [dC21, dC19, dC20] ≠ [dC19, dC20, dC21]
    ∧ dateLeB dC21 dC19 = false := by decide

/-! ## Claim C2 — assembler/splitter round trip -/

def msgC2 : AMsg :=
  ⟨"a@b".toList, "Thu Jan  1 00:00:00 2024".toList, "X-Test: 1\n\nFrom me".toList⟩

/-- C2 counterexample: assembling one well-formed message whose body has a
line starting with the From token and splitting the result does NOT give
back the original content — the prepended quote character is never
removed by the splitter, so the escaping is not undone symmetrically. -/
theorem c2_counterexample :
    splitMbox (assembleFrom [msgC2]) = ["X-Test: 1\n\n>From me".toList]
    ∧ splitMbox (assembleFrom [msgC2]) ≠ [msgC2.content] := by decide

/-- C2 witness: the amended round-trip statement applied to a concrete
message. -/
theorem c2_witness :
    splitMbox (assembleFrom [msgC2]) = [pyStrip (escapeContent msgC2.content)] := by
  have h := splitMbox_assembleFrom [msgC2] (by decide)
  simpa using h

/-! ## Claim C3 — valid Date header short-circuits the chain -/

/-- C3: when the Date header is present and the rfc parser returns a
date, the engine returns exactly that date, whatever the body, the other
headers and the filename contain — no later step of the chain is
consulted. -/
theorem c3_date_header_short_circuits (rfc : List Char → RfcRes)
    (fz : List Char → Option DateT) (m : DRMsg) (fn : List Char) (d : DateT)
    (h1 : m.dateHeader ≠ []) (h2 : rfc m.dateHeader = .ok d) :
    parseDateHeader rfc fz m fn = some d := by
  unfold parseDateHeader dateHeaderStep tryParseDate
  rw [if_neg h1, h2]

def rfcW3 : List Char → RfcRes := fun s =>
  if s = "Mon, 15 Mar 2021 10:00:00 +0000".toList then .ok ⟨2021, 3, 15, 10, 0, 0⟩ else .exn

/-- A message whose body, subject and filename all contain competing
dates. -/
def msgW3 : DRMsg :=
  ⟨"Mon, 15 Mar 2021 10:00:00 +0000".toList,
   .single (some "sent 1 November 2019 10:00".toList),
   "Subject 2020-01-01".toList, [], []⟩

theorem c3_witness :
    parseDateHeader rfcW3 (fun _ => none) msgW3 ("20190101_000000.eml".toList)
      = some ⟨2021, 3, 15, 10, 0, 0⟩ :=
  c3_date_header_short_circuits rfcW3 (fun _ => none) msgW3
    ("20190101_000000.eml".toList) ⟨2021, 3, 15, 10, 0, 0⟩ (by decide) (by decide)

/-! ## Claim C4 — body scan precedes filename scan -/

/-- C4: when step 1 fails and the body scan resolves a date, the engine
returns that date for EVERY filename — the filename is never consulted
once the body has yielded a timestamp. -/
theorem c4_body_precedes_filename (rfc : List Char → RfcRes)
    (fz : List Char → Option DateT) (m : DRMsg) (d : DateT)
    (h1 : dateHeaderStep rfc fz m = none)
    (h2 : bodyScan fz m.body = some d) :
    ∀ fn : List Char, parseDateHeader rfc fz m fn = some d := by
  intro fn
  unfold parseDateHeader
  rw [h1, h2]

def fzW4 : List Char → Option DateT := fun s =>
  if s = "1 November 2021 20:00".toList then some ⟨2021, 11, 1, 20, 0, 0⟩ else none

def msgW4 : DRMsg :=
  ⟨"not a date".toList, .single (some "Sent: 1 November 2021 20:00\nbye".toList), [], [], []⟩

/-- C4 witness: the exemplar of the claim — an unparsable Date header, a
body containing the text 1 November 2021 20:00, and a filename carrying a
different date 2019-03-15; the engine resolves 2021-11-01 20:00 from the
body even though the filename alone would resolve to the 2019 date. -/
theorem c4_witness :
    parseDateHeader (fun _ => .exn) fzW4 msgW4 ("20190315_101010_mail.eml".toList)
      = some ⟨2021, 11, 1, 20, 0, 0⟩
    ∧ filenameScan ("20190315_101010_mail.eml".toList) = some ⟨2019, 3, 15, 10, 10, 10⟩ :=
  ⟨c4_body_precedes_filename (fun _ => .exn) fzW4 msgW4 ⟨2021, 11, 1, 20, 0, 0⟩
    (by decide) (by decide) ("20190315_101010_mail.eml".toList), by decide⟩

/-! ## Claim C7 — total failure is per-file, the batch continues -/

theorem processFolderFrom_eq (rfc : List Char → RfcRes) (fz : List Char → Option DateT)
    (files : List EFile) :
    ∀ st, processFolderFrom rfc fz st files =
      (st.1 + (processFolder rfc fz files).1, st.2 ++ (processFolder rfc fz files).2) := by
  induction files with
  | nil =>
    intro st
    simp [processFolderFrom, processFolder]
  | cons f fs ih =>
    intro st
    have hcons : ∀ st', processFolderFrom rfc fz st' (f :: fs) =
        processFolderFrom rfc fz
          (if (parseDateHeader rfc fz f.msg f.filename).isSome then (st'.1 + 1, st'.2)
           else (st'.1, st'.2 ++ [(f.path, failReason)])) fs := fun st' => rfl
    rw [hcons st]
    rw [show processFolder rfc fz (f :: fs) = processFolderFrom rfc fz (0, []) (f :: fs) from rfl,
      hcons (0, [])]
    by_cases hp : (parseDateHeader rfc fz f.msg f.filename).isSome
    · rw [if_pos hp, if_pos hp, ih, ih]
      simp [Nat.add_assoc]
    · rw [if_neg hp, if_neg hp, ih, ih]
      simp [List.append_assoc]

/-- C7: when the whole fallback chain fails for one message (the engine
returns nothing rather than substituting the current time), the batch
records that file's path with the failure reason, counts it as failed,
and processes every other file exactly as it would without it. -/
theorem c7_per_file_failure (rfc : List Char → RfcRes) (fz : List Char → Option DateT)
    (pre post : List EFile) (bad : EFile)
    (h : parseDateHeader rfc fz bad.msg bad.filename = none) :
    processFolder rfc fz (pre ++ bad :: post) =
      ((processFolder rfc fz pre).1 + (processFolder rfc fz post).1,
       (processFolder rfc fz pre).2 ++ (bad.path, failReason) :: (processFolder rfc fz post).2) := by
  have h1 : processFolder rfc fz (pre ++ bad :: post)
      = processFolderFrom rfc fz (processFolder rfc fz pre) (bad :: post) := by
    show List.foldl _ (0, []) (pre ++ bad :: post) = _
    rw [List.foldl_append]
    rfl
  rw [h1]
  have hcons : processFolderFrom rfc fz (processFolder rfc fz pre) (bad :: post) =
      processFolderFrom rfc fz
        (if (parseDateHeader rfc fz bad.msg bad.filename).isSome
         then ((processFolder rfc fz pre).1 + 1, (processFolder rfc fz pre).2)
         else ((processFolder rfc fz pre).1,
               (processFolder rfc fz pre).2 ++ [(bad.path, failReason)])) post := rfl
  rw [hcons, h]
  simp only [Option.isSome_none, Bool.false_eq_true, if_false]
  rw [processFolderFrom_eq]
  simp [List.append_assoc]

def rfcW7 : List Char → RfcRes := fun s =>
  if s = "Thu, 1 Feb 2024 09:00:00 +0000".toList then .ok ⟨2024, 2, 1, 9, 0, 0⟩ else .exn

def goodW7 : EFile :=
  ⟨"a.eml".toList,
   ⟨"Thu, 1 Feb 2024 09:00:00 +0000".toList, .single none, [], [], []⟩, "a.eml".toList⟩

def goodW7b : EFile :=
  ⟨"c.eml".toList,
   ⟨"Thu, 1 Feb 2024 09:00:00 +0000".toList, .single none, [], [], []⟩, "c.eml".toList⟩

/-- A file on which every step of the chain fails: no Date header, an
undecodable single-part body, empty scan headers, and a filename with no
date in it. -/
def badW7 : EFile := ⟨"b.eml".toList, ⟨[], .single none, [], [], []⟩, "b.eml".toList⟩

theorem c7_witness :
    processFolder rfcW7 (fun _ => none) ([goodW7] ++ badW7 :: [goodW7b]) =
      ((processFolder rfcW7 (fun _ => none) [goodW7]).1
         + (processFolder rfcW7 (fun _ => none) [goodW7b]).1,
       (processFolder rfcW7 (fun _ => none) [goodW7]).2
         ++ (badW7.path, failReason) :: (processFolder rfcW7 (fun _ => none) [goodW7b]).2) :=
  c7_per_file_failure rfcW7 (fun _ => none) [goodW7] [goodW7b] badW7 (by decide)

/-! ## Claim C8 — charset fallback chain -/

/-- C8 counterexample: with a declared charset naming no known codec, the
routine raises (the decode call throws LookupError, which the source only
guards against UnicodeDecodeError) instead of returning text. -/
theorem c8_counterexample : tryDecodeWithEncodings (some "utf-9") [0x61] = .error () := rfl

/-- A declared charset that is absent or names a known codec. -/
def knownDeclared : Option String → Prop
  | none => True
  | some c => (lookupCodec c).isSome = true

theorem firstDec_utf8 (bs : List Nat) (t : List Char) (ht : utf8Dec bs = some t) :
    firstDec encodingsChain bs = some t := by
  show (match utf8Dec bs with
        | some s => some s
        | none => firstDec [latin1Dec, win1252Dec, win1252Dec] bs) = some t
  rw [ht]

theorem firstDec_utf8_none (bs : List Nat) (ht : utf8Dec bs = none) :
    firstDec encodingsChain bs = some (latin1Chars bs) := by
  show (match utf8Dec bs with
        | some s => some s
        | none => firstDec [latin1Dec, win1252Dec, win1252Dec] bs) = some (latin1Chars bs)
  rw [ht]
  rfl

/-- With no 0xF8 byte and no declared charset, the routine is the
fallback chain. -/
theorem tryDecode_noF8_none (bs : List Nat) (hf : bs.contains 0xF8 = false) :
    tryDecodeWithEncodings none bs = fallbackChain bs := by
  unfold tryDecodeWithEncodings
  rw [hf]
  rfl

/-- With no 0xF8 byte and a declared charset with a known codec, the
routine tries that codec first and otherwise runs the fallback chain. -/
theorem tryDecode_noF8_some (bs : List Nat) (cname : String)
    (dec : List Nat → Option (List Char)) (hf : bs.contains 0xF8 = false)
    (hl : lookupCodec cname = some dec) :
    tryDecodeWithEncodings (some cname) bs =
      (match dec bs with
       | some s => Except.ok s
       | none => fallbackChain bs) := by
  unfold tryDecodeWithEncodings
  rw [hf]
  show (match lookupCodec cname with
        | none => Except.error ()
        | some dec =>
          match dec bs with
          | some s => Except.ok s
          | none => fallbackChain bs) = _
  rw [hl]

theorem fallbackChain_spec (bs : List Nat) :
    (∀ t, utf8Dec bs = some t → fallbackChain bs = .ok t)
    ∧ (utf8Dec bs = none → fallbackChain bs = .ok (latin1Chars bs)) := by
  constructor
  · intro t ht
    unfold fallbackChain
    rw [firstDec_utf8 bs t ht]
  · intro ht
    unfold fallbackChain
    rw [firstDec_utf8_none bs ht]

/-- C8 (amended): for every byte sequence and every declared charset that
is absent or names a known codec, the routine returns text and never
raises; when byte 0xF8 is present the result is the ISO-8859-1 decoding;
otherwise the declared charset is tried first, then UTF-8, then
ISO-8859-1 — which cannot fail, so the two Windows code-page entries and
the lossy-replacement last resort that follow it in the chain are never
reached.  An unknown declared charset name instead raises a codec lookup
error. -/
theorem c8_decode_chain (bs : List Nat) (declared : Option String)
    (hknown : knownDeclared declared) :
    (∃ s, tryDecodeWithEncodings declared bs = .ok s)
    ∧ (bs.contains 0xF8 = true →
        tryDecodeWithEncodings declared bs = .ok (latin1Chars bs))
    ∧ (bs.contains 0xF8 = false →
        ∀ c dec t, declared = some c → lookupCodec c = some dec → dec bs = some t →
          tryDecodeWithEncodings declared bs = .ok t)
    ∧ (bs.contains 0xF8 = false →
        (declared = none ∨ ∃ c dec, declared = some c ∧ lookupCodec c = some dec ∧ dec bs = none) →
        (∀ t, utf8Dec bs = some t → tryDecodeWithEncodings declared bs = .ok t)
        ∧ (utf8Dec bs = none → tryDecodeWithEncodings declared bs = .ok (latin1Chars bs))) := by
  cases hf : bs.contains 0xF8 with
  | true =>
    have hres : tryDecodeWithEncodings declared bs = .ok (latin1Chars bs) := by
      unfold tryDecodeWithEncodings
      rw [hf]
      rfl
    refine ⟨⟨latin1Chars bs, hres⟩, fun _ => hres, ?_, ?_⟩
    · intro hc
      simp at hc
    · intro hc
      simp at hc
  | false =>
    cases declared with
    | none =>
      rw [tryDecode_noF8_none bs hf]
      have hfb := fallbackChain_spec bs
      refine ⟨?_, ?_, ?_, fun _ _ => hfb⟩
      · cases hu : utf8Dec bs with
        | some t => exact ⟨t, hfb.1 t hu⟩
        | none => exact ⟨latin1Chars bs, hfb.2 hu⟩
      · intro hc
        simp at hc
      · intro _ c dec t hc
        cases hc
    | some cname =>
      cases hl : lookupCodec cname with
      | none =>
        exact absurd hknown (by simp [knownDeclared, hl])
      | some dec =>
        rw [tryDecode_noF8_some bs cname dec hf hl]
        cases hd : dec bs with
        | some s =>
          refine ⟨⟨s, rfl⟩, ?_, ?_, ?_⟩
          · intro hc
            simp at hc
          · intro _ c dec' t hc hl' hd'
            cases hc
            rw [hl] at hl'
            cases hl'
            rw [hd] at hd'
            cases hd'
            rfl
          · intro _ hfail
            rcases hfail with hfail | ⟨c, dec', hc, hl', hd'⟩
            · cases hfail
            · cases hc
              rw [hl] at hl'
              cases hl'
              rw [hd] at hd'
              cases hd'
        | none =>
          have hfb := fallbackChain_spec bs
          refine ⟨?_, ?_, ?_, fun _ _ => hfb⟩
          · cases hu : utf8Dec bs with
            | some t => exact ⟨t, hfb.1 t hu⟩
            | none => exact ⟨latin1Chars bs, hfb.2 hu⟩
          · intro hc
            simp at hc
          · intro _ c dec' t hc hl' hd'
            cases hc
            rw [hl] at hl'
            cases hl'
            rw [hd] at hd'
            cases hd'

theorem c8_witness :
    (∃ s, tryDecodeWithEncodings (some "utf-8") [0xF8, 0x41] = .ok s)
    ∧ (([0xF8, 0x41] : List Nat).contains 0xF8 = true →
        tryDecodeWithEncodings (some "utf-8") [0xF8, 0x41] = .ok (latin1Chars [0xF8, 0x41]))
    ∧ (([0xF8, 0x41] : List Nat).contains 0xF8 = false →
        ∀ c dec t, (some "utf-8" : Option String) = some c → lookupCodec c = some dec →
          dec [0xF8, 0x41] = some t →
          tryDecodeWithEncodings (some "utf-8") [0xF8, 0x41] = .ok t)
    ∧ (([0xF8, 0x41] : List Nat).contains 0xF8 = false →
        ((some "utf-8" : Option String) = none ∨ ∃ c dec, (some "utf-8" : Option String) = some c
            ∧ lookupCodec c = some dec ∧ dec [0xF8, 0x41] = none) →
        (∀ t, utf8Dec [0xF8, 0x41] = some t →
          tryDecodeWithEncodings (some "utf-8") [0xF8, 0x41] = .ok t)
        ∧ (utf8Dec [0xF8, 0x41] = none →
          tryDecodeWithEncodings (some "utf-8") [0xF8, 0x41] = .ok (latin1Chars [0xF8, 0x41]))) :=
  c8_decode_chain [0xF8, 0x41] (some "utf-8") rfl

/-! ## Claim C5 — deduplication identity key -/

def fRecA : FileRec := ⟨"p1.eml".toList, "x|y|z".toList, [], [], [], []⟩
def fRecB : FileRec := ⟨"p2.eml".toList, [], "x".toList, "y".toList, "z".toList, []⟩

/-- C5 counterexample: a message whose Message-ID is the text x|y|z and a
message without Message-ID whose From, To and Date are x, y, z receive
the SAME key, although they satisfy neither arm of the claimed
condition — the Message-ID key space and the composite key space are not
disjoint, so the claimed equivalence fails in the only-if direction. -/
theorem c5_counterexample :
    getEmailKey fRecA = getEmailKey fRecB ∧ ¬ specSameKey fRecA fRecB := by decide

/-- The corrected characterisation of key equality. -/
def amendedSameKey (a b : FileRec) : Prop :=
  specSameKey a b
  ∨ (pyStrip a.messageId ≠ [] ∧ pyStrip b.messageId = []
      ∧ lowerStr (pyStrip a.messageId) = compositeKey b)
  ∨ (pyStrip a.messageId = [] ∧ pyStrip b.messageId ≠ []
      ∧ compositeKey a = lowerStr (pyStrip b.messageId))

/-- C5 (amended): two messages get the same identity key iff they have
the same stripped-then-lowercased non-empty Message-ID, or both lack a
Message-ID and agree on the composite From-To-Date string, or the
stripped-lowercased Message-ID of one equals the composite string of the
other; and the key never depends on the body content or the path. -/
theorem c5_key_characterisation (a b : FileRec) :
    (getEmailKey a = getEmailKey b ↔ amendedSameKey a b)
    ∧ (∀ c p, getEmailKey ⟨p, a.messageId, a.fromH, a.toH, a.dateH, c⟩ = getEmailKey a) := by
  constructor
  · unfold amendedSameKey specSameKey getEmailKey
    by_cases ha : pyStrip a.messageId = [] <;> by_cases hb : pyStrip b.messageId = [] <;>
      simp [ha, hb]
  · intro c p
    rfl

theorem c5_witness :
    (getEmailKey fRecA = getEmailKey fRecB ↔ amendedSameKey fRecA fRecB)
    ∧ (∀ c p, getEmailKey ⟨p, fRecA.messageId, fRecA.fromH, fRecA.toH, fRecA.dateH, c⟩
        = getEmailKey fRecA) :=
  c5_key_characterisation fRecA fRecB

/-! ## Claim C6 — selection rule -/

/-- C6: whatever the selector returns is a member of the group scoring
lexicographically no worse than any other member, the replacement
character count being compared before the path length. -/
theorem c6_selection_minimal (l : List FileRec) (x : FileRec)
    (h : selectBestVersion l = some x) :
    x ∈ l ∧ ∀ y ∈ l, ¬ scoreLt (dupScore y) (dupScore x) := by
  cases l with
  | nil => cases h
  | cons a as =>
    simp only [selectBestVersion, Option.some_inj] at h
    subst h
    obtain ⟨pre, suf, hdec, hmin, _⟩ := foldl_selStep_first_min as a
    constructor
    · rw [hdec]
      exact List.mem_append_right pre (List.mem_cons_self _ _)
    · exact hmin

/-- Three replacement characters, path of length 40. -/
def fRecC6A : FileRec :=
  ⟨List.replicate 40 'a', "id1".toList, [], [], [], ['�', '�', '�']⟩

/-- No replacement character, path of length 200. -/
def fRecC6B : FileRec :=
  ⟨List.replicate 200 'b', "id1".toList, [], [], [], "clean body".toList⟩

/-- C6 witness: the member with zero replacement characters and the much
longer path wins over the member with three replacement characters and
the short path, because the replacement count is compared first. -/
theorem c6_witness :
    selectBestVersion [fRecC6A, fRecC6B] = some fRecC6B
    ∧ (fRecC6B ∈ [fRecC6A, fRecC6B]
       ∧ ∀ y ∈ [fRecC6A, fRecC6B], ¬ scoreLt (dupScore y) (dupScore fRecC6B)) :=
  ⟨by decide, c6_selection_minimal [fRecC6A, fRecC6B] fRecC6B (by decide)⟩

/-! ## Claim C10 — deterministic tie break -/

/-- C10: the group collected for a key is the traversal-order filter of
the input files by that key, and the selector returns its FIRST member of
minimal score: the group decomposes into a prelude of strictly worse
members, the winner, and a remainder no better than it — in particular
the selection is deterministic under ties. -/
theorem c10_first_minimal (files : List FileRec) (k : List Char) (l : List FileRec)
    (x : FileRec) (hg : findGroup (buildGroups files) k = some l)
    (hs : selectBestVersion l = some x) :
    l = files.filter (fun f => getEmailKey f = k)
    ∧ ∃ pre suf, l = pre ++ x :: suf
        ∧ (∀ y ∈ l, ¬ scoreLt (dupScore y) (dupScore x))
        ∧ (∀ y ∈ pre, scoreLt (dupScore x) (dupScore y)) := by
  refine ⟨findGroup_buildGroups files k l hg, ?_⟩
  cases l with
  | nil => cases hs
  | cons a as =>
    simp only [selectBestVersion, Option.some_inj] at hs
    subst hs
    exact foldl_selStep_first_min as a

def fRecT1 : FileRec := ⟨"d/one.eml".toList, "K".toList, [], [], [], ['�']⟩
def fRecT2 : FileRec := ⟨"d/two.eml".toList, "K".toList, [], [], [], "ok".toList⟩
def fRecT3 : FileRec := ⟨"d/thr.eml".toList, "K".toList, [], [], [], "ok".toList⟩

/-- C10 witness: the second and third files tie on both score components;
the selector keeps the second — the first minimal member in traversal
order. -/
theorem c10_witness :
    [fRecT1, fRecT2, fRecT3]
        = List.filter (fun f => getEmailKey f = "k".toList) [fRecT1, fRecT2, fRecT3]
    ∧ ∃ pre suf, [fRecT1, fRecT2, fRecT3] = pre ++ fRecT2 :: suf
        ∧ (∀ y ∈ [fRecT1, fRecT2, fRecT3], ¬ scoreLt (dupScore y) (dupScore fRecT2))
        ∧ (∀ y ∈ pre, scoreLt (dupScore fRecT2) (dupScore y)) :=
  c10_first_minimal [fRecT1, fRecT2, fRecT3] ("k".toList) [fRecT1, fRecT2, fRecT3] fRecT2
    (by decide) (by decide)

/-! ## Claim C9 — splitter on separator-free input -/

/-- C9 counterexample: an input with no separator line and non-whitespace
content yields ONE message (the whole stripped input), not zero. -/
theorem c9_counterexample :
    (∀ l ∈ (splitOnChar '\n' ("hello".toList)).dropLast, isSepLine l = false)
    ∧ splitMbox ("hello".toList) = ["hello".toList]
    ∧ splitMbox ("hello".toList) ≠ [] := by decide

/-- C9 (amended): on input with no separator line the splitter yields the
whole stripped input as a single message, or nothing when the input is
whitespace-only; and every returned message of any input is non-empty
(empty and whitespace-only segments are always discarded). -/
theorem c9_no_sep_behaviour (cs : List Char) :
    ((∀ l ∈ (splitOnChar '\n' cs).dropLast, isSepLine l = false) →
      splitMbox cs = if pyStrip cs = [] then [] else [pyStrip cs])
    ∧ (∀ s ∈ splitMbox cs, s ≠ []) :=
  ⟨splitMbox_no_sep cs, splitMbox_mem_ne_nil cs⟩

theorem c9_witness :
    splitMbox ("  \n ".toList) = [] ∧ splitMbox ("hello world".toList) = ["hello world".toList] := by
  have h1 := (c9_no_sep_behaviour ("  \n ".toList)).1 (by decide)
  have h2 := (c9_no_sep_behaviour ("hello world".toList)).1 (by decide)
  constructor
  · rw [h1]; decide
  · rw [h2]; decide

end Mig
